import Mathlib

/-!
Verification of the HL7 receiving server (`hl7_server.py`) against its
natural-language specification.

The embedding below models the text/byte-level behaviour of the server:
strings are `List Char` (the decoded text Python works on), byte streams
are `List Nat` (each entry one byte), and the message store directory is a
`List StoredFile`.  Fallible system calls (`os.unlink`, `file.write`,
`socket.send`) are modelled by explicit success flags/predicates, and
`datetime.now()` timestamps are explicit parameters.  Loops whose Python
form is `while ... in buffer` are given fuel equal to the buffer length,
which provably suffices because every iteration strictly shortens the
buffer.
-/

/-- Characters of a string literal, used to embed Python string constants. -/
def chars (s : String) : List Char := s.data

/-- Python `str.isspace` on the characters that `str.strip()` removes:
ASCII whitespace, the C0 separator block 0x1c-0x1f, next-line 0x85,
no-break space 0xa0, and the Unicode space separators. -/
def pyIsSpace (c : Char) : Bool :=
  c.toNat = 9 || c.toNat = 10 || c.toNat = 11 || c.toNat = 12 || c.toNat = 13 ||
  c.toNat = 28 || c.toNat = 29 || c.toNat = 30 || c.toNat = 31 || c.toNat = 32 ||
  c.toNat = 133 || c.toNat = 160 || c.toNat = 5760 ||
  (8192 ≤ c.toNat && c.toNat ≤ 8202) || c.toNat = 8232 || c.toNat = 8233 ||
  c.toNat = 8239 || c.toNat = 8287 || c.toNat = 12288

/-- Python `str.strip()`: drop leading and trailing whitespace. -/
def strip (l : List Char) : List Char :=
  ((l.dropWhile pyIsSpace).reverse.dropWhile pyIsSpace).reverse

/-- Python `str.find(t)` restricted to a single-character needle: index of the
first occurrence, `none` standing for Python's `-1`. -/
def findChar : List Char → Char → Option Nat
  | [], _ => none
  | c :: cs, t => if c = t then some 0 else (findChar cs t).map (· + 1)

/-- The end-of-message position computed by `HL7Server.handle_client`
(lines 152-154): `end_pos = buffer.find('\x1c')`, falling back to
`buffer.find('\r')` only when no file separator is present at all. -/
def findEndPos (buffer : List Char) : Option Nat :=
  match findChar buffer '\x1c' with
  | some i => some i
  | none => findChar buffer '\r'

/-- Modelled from the spec: the claim's reading of the boundary, the first
occurrence of either terminator (hard 0x1c or soft 0x0d), whichever occurs
first in the buffer.  Kept for comparison with `findEndPos`, which is the
code's actual rule. -/
def firstEitherIdx : List Char → Option Nat
  | [] => none
  | c :: cs =>
    if c = '\x1c' ∨ c = '\r' then some 0 else (firstEitherIdx cs).map (· + 1)

/-- The inner `while '\x1c' in buffer or '\r' in buffer` loop of
`HL7Server.handle_client` (lines 150-164), with explicit fuel.  Each
iteration removes at least one character (`buffer = buffer[end_pos + 1:]`),
so fuel `buffer.length` always suffices; `processBuffer` below applies it.
Returns the extracted (stripped, non-empty) messages in order together
with the leftover buffer. -/
def processBufferFuel : Nat → List Char → List (List Char) × List Char
  | 0, buffer => ([], buffer)
  | fuel + 1, buffer =>
    if '\x1c' ∈ buffer ∨ '\r' ∈ buffer then
      match findEndPos buffer with
      | none => ([], buffer)
      | some endPos =>
        let message := strip (buffer.take endPos)
        let rest := buffer.drop (endPos + 1)
        let r := processBufferFuel fuel rest
        (if message.isEmpty then r.1 else message :: r.1, r.2)
    else ([], buffer)

/-- One full run of the message-extraction loop on the current buffer. -/
def processBuffer (buffer : List Char) : List (List Char) × List Char :=
  processBufferFuel buffer.length buffer

/-- The receive loop of `HL7Server.handle_client`: each network chunk is
appended to the buffer and the extraction loop runs; accumulates all
extracted messages across chunks. -/
def feedChunksGo (acc : List (List Char)) (buffer : List Char) :
    List (List Char) → List (List Char) × List Char
  | [] => (acc, buffer)
  | c :: cs =>
    let r := processBuffer (buffer ++ c)
    feedChunksGo (acc ++ r.1) r.2 cs

/-- The Frame Splitter driven over a whole chunked stream, starting from an
empty buffer. -/
def feedChunks (chunks : List (List Char)) : List (List Char) × List Char :=
  feedChunksGo [] [] chunks

/-- A UTF-8 continuation byte `10xxxxxx`. -/
def isCont (b : Nat) : Bool := 128 ≤ b && b ≤ 191

/-- Valid second byte of a three-byte sequence with lead `b1` (E0 requires
A0-BF, ED requires 80-9F to exclude overlong forms and surrogates). -/
def cont3 (b1 b2 : Nat) : Bool :=
  if b1 = 224 then 160 ≤ b2 && b2 ≤ 191
  else if b1 = 237 then 128 ≤ b2 && b2 ≤ 159
  else isCont b2

/-- Valid second byte of a four-byte sequence with lead `b1` (F0 requires
90-BF, F4 requires 80-8F to stay within U+10FFFF). -/
def cont4 (b1 b2 : Nat) : Bool :=
  if b1 = 240 then 144 ≤ b2 && b2 ≤ 191
  else if b1 = 244 then 128 ≤ b2 && b2 ≤ 143
  else isCont b2

/-- Python `bytes.decode('utf-8', errors='ignore')` (line 143 of
`hl7_server.py`): a total decoder that drops each maximal ill-formed
subsequence and continues at the offending byte; a truncated sequence at
end of input is likewise dropped.  Explicit fuel; every recursive call
consumes at least one byte, so fuel = input length suffices. -/
def utf8DecodeFuel : Nat → List Nat → List Char
  | 0, _ => []
  | _ + 1, [] => []
  | fuel + 1, b :: bs =>
    if b < 128 then Char.ofNat b :: utf8DecodeFuel fuel bs
    else if 194 ≤ b && b ≤ 223 then
      match bs with
      | [] => []
      | b2 :: bs2 =>
        if isCont b2 then
          Char.ofNat ((b - 192) * 64 + (b2 - 128)) :: utf8DecodeFuel fuel bs2
        else utf8DecodeFuel fuel bs
    else if 224 ≤ b && b ≤ 239 then
      match bs with
      | [] => []
      | b2 :: bs2 =>
        if cont3 b b2 then
          match bs2 with
          | [] => []
          | b3 :: bs3 =>
            if isCont b3 then
              Char.ofNat ((b - 224) * 4096 + (b2 - 128) * 64 + (b3 - 128)) ::
                utf8DecodeFuel fuel bs3
            else utf8DecodeFuel fuel bs2
        else utf8DecodeFuel fuel bs
    else if 240 ≤ b && b ≤ 244 then
      match bs with
      | [] => []
      | b2 :: bs2 =>
        if cont4 b b2 then
          match bs2 with
          | [] => []
          | b3 :: bs3 =>
            if isCont b3 then
              match bs3 with
              | [] => []
              | b4 :: bs4 =>
                if isCont b4 then
                  Char.ofNat ((b - 240) * 262144 + (b2 - 128) * 4096 +
                    (b3 - 128) * 64 + (b4 - 128)) :: utf8DecodeFuel fuel bs4
                else utf8DecodeFuel fuel bs3
            else utf8DecodeFuel fuel bs2
        else utf8DecodeFuel fuel bs
    else utf8DecodeFuel fuel bs

/-- Total UTF-8 decoding with invalid bytes ignored. -/
def decodeUtf8Ignore (bs : List Nat) : List Char := utf8DecodeFuel bs.length bs

/-- Outcome of one iteration of the `handle_client` receive loop. -/
inductive RecvOutcome
  | closed
  | continued (msgs : List (List Char)) (buffer : List Char)
deriving DecidableEq

/-- One iteration of the receive loop of `HL7Server.handle_client`
(lines 142-164): decode the received bytes with `errors='ignore'`; if the
decoded string is empty (`if not data: break`) the loop ends and the
connection is closed — note this conflates a peer close (empty `recv`)
with a non-empty chunk whose bytes were all undecodable; otherwise the
decoded text is appended to the buffer and the extraction loop runs. -/
def recvStep (buffer : List Char) (chunk : List Nat) : RecvOutcome :=
  let data := decodeUtf8Ignore chunk
  if data.isEmpty then .closed
  else
    let r := processBuffer (buffer ++ data)
    .continued r.1 r.2

/-- One persisted `.hl7` record: its filename and its modification time
(`st_mtime`, abstracted to a natural number). -/
structure StoredFile where
  name : List Char
  mtime : Nat
deriving DecidableEq

/-- The sort order used by `cleanup_old_files`: `files.sort(key=lambda x: x[0])`
on `(mtime, path)` pairs — compare modification times only. -/
def mtimeLe : Nat × List Char → Nat × List Char → Prop :=
  fun a b => a.1 ≤ b.1

instance : DecidableRel mtimeLe := fun a b => Nat.decLe a.1 b.1

instance : IsTotal (Nat × List Char) mtimeLe := ⟨fun a b => Nat.le_total a.1 b.1⟩

instance : IsTrans (Nat × List Char) mtimeLe := ⟨fun _ _ _ => Nat.le_trans⟩

/-- The `(mtime, path)` listing built and sorted by
`HL7Server.cleanup_old_files` (lines 59-68).  The model treats `stat` as
total (the source skips a file whose `stat` raises; no claim depends on
that case). -/
def sortedPairs (dir : List StoredFile) : List (Nat × List Char) :=
  List.insertionSort mtimeLe (dir.map fun f => (f.mtime, f.name))

/-- The deletion loop of `cleanup_old_files` (lines 74-80): unlink each
listed file in order; `unlinkOk` tells which unlinks succeed, and a failed
unlink is logged and skipped without aborting the remaining deletions. -/
def unlinkFiles (unlinkOk : List Char → Bool) :
    List (Nat × List Char) → List StoredFile → List StoredFile
  | [], dir => dir
  | p :: ps, dir =>
    if unlinkOk p.2 then
      unlinkFiles unlinkOk ps (dir.filter fun f => f.name ≠ p.2)
    else unlinkFiles unlinkOk ps dir

/-- Model of `HL7Server.cleanup_old_files` (lines 55-87): list all records with
modification times, sort ascending by mtime, and delete the oldest
`len(files) // 2` of them (skipping failed unlinks). -/
def cleanup_old_files (unlinkOk : List Char → Bool) (dir : List StoredFile) :
    List StoredFile :=
  let files := sortedPairs dir
  let files_to_remove := files.length / 2
  if 0 < files_to_remove then unlinkFiles unlinkOk (files.take files_to_remove) dir
  else dir

/-- Model of `HL7Server.count_message_files` (lines 48-53): the number of `.hl7`
files currently in the directory. -/
def count_message_files (dir : List StoredFile) : Nat := dir.length

/-- Model of `HL7Server.save_message` (lines 204-235), under `self.file_lock`: re-read
the count; when `current_count >= max_files` run the batch cleanup; then
write the new record.  The whole body sits in a `try/except` that logs any
failure, so the Python function always returns `None` — modelled by the
second component, the function's returned value, being `none` on every
path.  `writeOk` is the success of the `open`/`write`; a failed write adds
no record (the model folds a partially-written file into "not written"). -/
def save_message (unlinkOk : List Char → Bool) (writeOk : Bool) (max_files : Nat)
    (dir : List StoredFile) (newFile : StoredFile) :
    List StoredFile × Option (List Char) :=
  let current_count := count_message_files dir
  let dir1 := if max_files ≤ current_count then cleanup_old_files unlinkOk dir else dir
  if writeOk then (dir1 ++ [newFile], none) else (dir1, none)

/-- Modelled from the spec: `save(record) -> Result<filename, IOError>` —
"releases the lock; returns the generated filename or an I/O failure."
This is the interface the spec describes for the store, kept beside
`save_message` (the code) for comparison. -/
def save_spec (writeOk : Bool) (filename : List Char) : Except Unit (List Char) :=
  if writeOk then .ok filename else .error ()

/-- Caret-to-underscore replacement applied to the message type when building the
record's filename (line 217). -/
def replace_caret (s : List Char) : List Char :=
  s.map fun c => if c = '^' then '_' else c

/-- The generated filename
`{timestamp}_{control_id}_{msg_type.replace('^','_')}.hl7` (line 217). -/
def message_filename (fileTimestamp control_id msg_type : List Char) : List Char :=
  fileTimestamp ++ chars ("_") ++ control_id ++ chars ("_") ++
    replace_caret msg_type ++ chars (".hl7")

/-- Model of `HL7Server.create_ack` (lines 237-245).  The MSH segment is the parsed
field list (python-hl7 indexing, field 10 = control id); indexing
`original_msh[3]` / `original_msh[4]` in the reply's f-string raises
`IndexError` when the segment is too short, which escapes to the caller —
modelled by the `none` result.  The control id falls back to `"UNKNOWN"`
when field 10 is absent (that branch is length-guarded in the source). -/
def create_ack (timestamp : List Char) (original_msh : List (List Char)) :
    Option (List Char) :=
  let control_id :=
    if h : 10 < original_msh.length then original_msh.get ⟨10, h⟩
    else chars ("UNKNOWN")
  match original_msh[3]?, original_msh[4]? with
  | some f3, some f4 =>
    some (chars ("MSH|^~\\&|HL7_SERVER||") ++ f3 ++ chars ("|") ++ f4 ++
      chars ("|") ++ timestamp ++ chars ("||ACK|") ++ control_id ++
      chars ("_ACK|P|2.3.1\r") ++ chars ("MSA|AA|") ++ control_id ++
      chars ("|Message accepted\r") ++ chars ("\x1c"))
  | _, _ => none

/-- Model of `HL7Server.create_nak` (lines 247-254): a two-segment negative
acknowledgment; the error text is truncated to its first 100 characters
(`error_msg[:100]`), and the reply ends with the `'\x1c'` marker. -/
def create_nak (timestamp control_id error_msg : List Char) : List Char :=
  chars ("MSH|^~\\&|HL7_SERVER||||") ++ timestamp ++ chars ("||ACK|") ++
    control_id ++ chars ("_NAK|P|2.3.1\r") ++
    chars ("MSA|AE|") ++ control_id ++ chars ("|") ++ error_msg.take 100 ++
    chars ("\r") ++ chars ("\x1c")

/-- Environment of one `process_message` call: the outcome of
`hl7.parse` + `h.segment('MSH')` (error description or the MSH field
list), the success of the file write, of the ACK `send`, and of the NAK
`send`, the `datetime.now()` renderings used at each point, the new
record's modification time, and which unlinks succeed during a cleanup. -/
structure MsgEnv where
  parseResult : Except (List Char) (List (List Char))
  writeOk : Bool
  sendOk : Bool
  nakSendOk : Bool
  unlinkOk : List Char → Bool
  fileTimestamp : List Char
  ackTimestamp : List Char
  nakTimestamp : List Char
  sendErrText : List Char
  newMtime : Nat

/-- The reply written back on the client socket, if any. -/
inductive Reply
  | ackSent (s : List Char)
  | nakSent (s : List Char)
  | noReply
deriving DecidableEq

/-- Whether a reply is a negative acknowledgment. -/
def Reply.isNak : Reply → Bool
  | .nakSent _ => true
  | _ => false

/-- Python `str(IndexError('list index out of range'))`, the description of
the failure raised by a too-short MSH segment inside `create_ack`. -/
def indexErrorText : List Char := chars ("list index out of range")

/-- Model of `HL7Server.process_message` (lines 172-202): parse, extract header
fields (length-guarded, defaulting to `"UNKNOWN"`), save (whose failures
are swallowed inside `save_message`), build and send the ACK; any failure
that reaches the outer `except` is answered with
`create_nak("UNKNOWN", str(e))`, the NAK send itself being best-effort
(`except: pass`).  Returns the updated directory, the reply written on the
socket, and whether the handler loop continues (it always does — the
function returns normally on every path). -/
def process_message (env : MsgEnv) (max_files : Nat) (dir : List StoredFile) :
    List StoredFile × Reply × Bool :=
  match env.parseResult with
  | .error e =>
    (dir,
     if env.nakSendOk then
       .nakSent (create_nak env.nakTimestamp (chars ("UNKNOWN")) e)
     else .noReply,
     true)
  | .ok msh =>
    let msg_control_id :=
      if h : 10 < msh.length then msh.get ⟨10, h⟩ else chars ("UNKNOWN")
    let msg_type :=
      if h : 9 < msh.length then msh.get ⟨9, h⟩ else chars ("UNKNOWN")
    let dir1 := (save_message env.unlinkOk env.writeOk max_files dir
      ⟨message_filename env.fileTimestamp msg_control_id msg_type,
       env.newMtime⟩).1
    match create_ack env.ackTimestamp msh with
    | none =>
      (dir1,
       if env.nakSendOk then
         .nakSent (create_nak env.nakTimestamp (chars ("UNKNOWN")) indexErrorText)
       else .noReply,
       true)
    | some ack =>
      if env.sendOk then (dir1, .ackSent ack, true)
      else
        (dir1,
         if env.nakSendOk then
           .nakSent (create_nak env.nakTimestamp (chars ("UNKNOWN")) env.sendErrText)
         else .noReply,
         true)

/-- A piece of text containing neither terminator byte. -/
def noTerm (l : List Char) : Prop := ∀ c ∈ l, c ≠ '\x1c' ∧ c ≠ '\r'

/-- Every terminator byte occurring in `l` is the designated one `t`
(the stream mixes no second terminator kind). -/
def uniformTerm (t : Char) (l : List Char) : Prop :=
  ∀ c ∈ l, (c = '\x1c' ∨ c = '\r') → c = t

/-- A well-formed message text: non-empty, free of both terminator bytes,
and untouched by whitespace trimming. -/
def WFMessage (m : List Char) : Prop := m ≠ [] ∧ noTerm m ∧ strip m = m

instance : DecidablePred noTerm := fun l =>
  inferInstanceAs (Decidable (∀ c ∈ l, c ≠ '\x1c' ∧ c ≠ '\r'))

instance (t : Char) : DecidablePred (uniformTerm t) := fun l =>
  inferInstanceAs (Decidable (∀ c ∈ l, (c = '\x1c' ∨ c = '\r') → c = t))

instance : DecidablePred WFMessage := fun m =>
  inferInstanceAs (Decidable (m ≠ [] ∧ noTerm m ∧ strip m = m))

theorem findChar_some_lt {l : List Char} {t : Char} {i : Nat}
    (h : findChar l t = some i) : i < l.length := by
  induction l generalizing i with
  | nil => simp [findChar] at h
  | cons c cs ih =>
    simp only [findChar] at h
    by_cases hc : c = t
    · simp only [if_pos hc, Option.some_inj] at h
      simp only [List.length_cons]
      omega
    · simp only [if_neg hc, Option.map_eq_some'] at h
      obtain ⟨j, hj, rfl⟩ := h
      have := ih hj
      simp only [List.length_cons]
      omega

theorem findChar_eq_none {l : List Char} {t : Char} :
    findChar l t = none ↔ t ∉ l := by
  induction l with
  | nil => simp [findChar]
  | cons c cs ih =>
    simp only [findChar]
    by_cases hc : c = t
    · simp [hc]
    · simp only [if_neg hc, Option.map_eq_none', ih, List.mem_cons]
      constructor
      · rintro hn (rfl | hm)
        · exact hc rfl
        · exact hn hm
      · intro hn hm
        exact hn (Or.inr hm)

theorem findChar_mem {l : List Char} {t : Char} {i : Nat}
    (h : findChar l t = some i) : t ∈ l := by
  by_contra hm
  rw [← findChar_eq_none] at hm
  rw [h] at hm
  exact Option.noConfusion hm

theorem findChar_getElem {l : List Char} {t : Char} {i : Nat}
    (h : findChar l t = some i) :
    l[i]? = some t ∧ ∀ k, k < i → l[k]? ≠ some t := by
  induction l generalizing i with
  | nil => simp [findChar] at h
  | cons c cs ih =>
    simp only [findChar] at h
    by_cases hc : c = t
    · simp only [if_pos hc, Option.some_inj] at h
      obtain rfl : i = 0 := h.symm
      subst hc
      exact ⟨by simp, fun k hk => absurd hk (Nat.not_lt_zero k)⟩
    · simp only [if_neg hc, Option.map_eq_some'] at h
      obtain ⟨j, hj, rfl⟩ := h
      obtain ⟨hg, hmin⟩ := ih hj
      refine ⟨by simpa using hg, ?_⟩
      intro k hk
      match k with
      | 0 =>
        simp only [List.getElem?_cons_zero]
        intro hct
        exact hc (Option.some.inj hct)
      | k + 1 =>
        simp only [List.getElem?_cons_succ]
        exact hmin k (by omega)

theorem findChar_append {b₁ b₂ : List Char} {t : Char} (h : t ∉ b₁) :
    findChar (b₁ ++ t :: b₂) t = some b₁.length := by
  induction b₁ with
  | nil => simp [findChar]
  | cons c cs ih =>
    have hc : c ≠ t := fun hct => h (hct ▸ List.mem_cons_self c cs)
    have hcs : t ∉ cs := fun hm => h (List.mem_cons_of_mem c hm)
    rw [List.cons_append]
    simp only [findChar, if_neg hc]
    rw [ih hcs]
    rfl

theorem findEndPos_lt_length {l : List Char} {e : Nat}
    (h : findEndPos l = some e) : e < l.length := by
  unfold findEndPos at h
  cases hf : findChar l '\x1c' with
  | some i =>
    rw [hf, Option.some_inj] at h
    exact h ▸ findChar_some_lt hf
  | none =>
    rw [hf] at h
    exact findChar_some_lt h

theorem findEndPos_isSome {l : List Char} (h : '\x1c' ∈ l ∨ '\r' ∈ l) :
    ∃ e, findEndPos l = some e := by
  unfold findEndPos
  cases hf : findChar l '\x1c' with
  | some i => exact ⟨i, rfl⟩
  | none =>
    have hfs : '\x1c' ∉ l := findChar_eq_none.mp hf
    have hcr : '\r' ∈ l := h.resolve_left hfs
    cases hg : findChar l '\r' with
    | some j => exact ⟨j, rfl⟩
    | none => exact absurd hcr (findChar_eq_none.mp hg)

theorem findEndPos_mem {l : List Char} {e : Nat} (h : findEndPos l = some e) :
    '\x1c' ∈ l ∨ '\r' ∈ l := by
  unfold findEndPos at h
  cases hf : findChar l '\x1c' with
  | some i => exact Or.inl (findChar_mem hf)
  | none =>
    rw [hf] at h
    exact Or.inr (findChar_mem h)

theorem noTerm_of_not_mem {l : List Char} (h1 : '\x1c' ∉ l) (h2 : '\r' ∉ l) :
    noTerm l :=
  fun c hm => ⟨fun hc => h1 (hc ▸ hm), fun hc => h2 (hc ▸ hm)⟩

theorem noTerm_subset {l₁ l₂ : List Char} (h : l₁ ⊆ l₂) (hn : noTerm l₂) :
    noTerm l₁ :=
  fun c hm => hn c (h hm)

theorem uniformTerm_subset {t : Char} {l₁ l₂ : List Char} (h : l₁ ⊆ l₂)
    (hu : uniformTerm t l₂) : uniformTerm t l₁ :=
  fun c hm => hu c (h hm)

theorem uniformTerm_of_noTerm {t : Char} {l : List Char} (h : noTerm l) :
    uniformTerm t l :=
  fun c hm hc => hc.elim (fun h1 => absurd h1 (h c hm).1)
    (fun h2 => absurd h2 (h c hm).2)

theorem uniformTerm_append {t : Char} {a b : List Char} :
    uniformTerm t (a ++ b) ↔ uniformTerm t a ∧ uniformTerm t b := by
  constructor
  · intro h
    exact ⟨uniformTerm_subset (List.subset_append_left a b) h,
      uniformTerm_subset (List.subset_append_right a b) h⟩
  · rintro ⟨h1, h2⟩ c hm hc
    rcases List.mem_append.mp hm with hm | hm
    · exact h1 c hm hc
    · exact h2 c hm hc

theorem noTerm_of_uniform_not_mem {t : Char} {l : List Char}
    (hu : uniformTerm t l) (h : t ∉ l) : noTerm l :=
  fun c hm => ⟨fun hc => h ((hu c hm (Or.inl hc)) ▸ hm),
    fun hc => h ((hu c hm (Or.inr hc)) ▸ hm)⟩

theorem findEndPos_decomp {t : Char} {b₁ b₂ : List Char}
    (ht : t = '\x1c' ∨ t = '\r') (hb₁ : noTerm b₁) (hb₂ : uniformTerm t b₂) :
    findEndPos (b₁ ++ t :: b₂) = some b₁.length := by
  have hfs₁ : '\x1c' ∉ b₁ := fun hm => (hb₁ _ hm).1 rfl
  rcases ht with rfl | rfl
  · unfold findEndPos
    rw [findChar_append hfs₁]
  · have hfs₂ : '\x1c' ∉ b₂ := fun hm => by
      have := hb₂ _ hm (Or.inl rfl)
      exact absurd this (by decide)
    have hfs : '\x1c' ∉ b₁ ++ '\r' :: b₂ := by
      intro hm
      rcases List.mem_append.mp hm with hm | hm
      · exact hfs₁ hm
      · rcases List.mem_cons.mp hm with hm | hm
        · exact absurd hm (by decide)
        · exact hfs₂ hm
    have hcr₁ : '\r' ∉ b₁ := fun hm => (hb₁ _ hm).2 rfl
    unfold findEndPos
    rw [findChar_eq_none.mpr hfs, findChar_append hcr₁]

theorem processBufferFuel_congr :
    ∀ f₁ f₂ (l : List Char), l.length ≤ f₁ → l.length ≤ f₂ →
      processBufferFuel f₁ l = processBufferFuel f₂ l := by
  intro f₁
  induction f₁ with
  | zero =>
    intro f₂ l h₁ _
    obtain rfl : l = [] := List.eq_nil_of_length_eq_zero (Nat.le_zero.mp h₁)
    cases f₂ with
    | zero => rfl
    | succ m => simp [processBufferFuel]
  | succ k ih =>
    intro f₂ l h₁ h₂
    cases l with
    | nil =>
      cases f₂ with
      | zero => simp [processBufferFuel]
      | succ m => simp [processBufferFuel]
    | cons x xs =>
      cases f₂ with
      | zero => simp at h₂
      | succ m =>
        simp only [processBufferFuel]
        by_cases hc : ('\x1c' ∈ x :: xs ∨ '\r' ∈ x :: xs)
        · simp only [if_pos hc]
          cases hfe : findEndPos (x :: xs) with
          | none => rfl
          | some e =>
            have helt := findEndPos_lt_length hfe
            have hlen : ((x :: xs).drop (e + 1)).length ≤ k := by
              simp only [List.length_drop]
              simp only [List.length_cons] at h₁ helt ⊢
              omega
            have hlen2 : ((x :: xs).drop (e + 1)).length ≤ m := by
              simp only [List.length_drop]
              simp only [List.length_cons] at h₂ helt ⊢
              omega
            simp only [ih m _ hlen hlen2]
        · simp only [if_neg hc]

theorem processBufferFuel_eq {f : Nat} {l : List Char} (h : l.length ≤ f) :
    processBufferFuel f l = processBuffer l :=
  processBufferFuel_congr f l.length l h le_rfl

theorem processBuffer_noTerm {l : List Char} (h : noTerm l) :
    processBuffer l = ([], l) := by
  have hc : ¬('\x1c' ∈ l ∨ '\r' ∈ l) := by
    rintro (hm | hm)
    · exact (h _ hm).1 rfl
    · exact (h _ hm).2 rfl
  cases l with
  | nil => rfl
  | cons x xs =>
    show processBufferFuel (xs.length + 1) (x :: xs) = ([], x :: xs)
    simp only [processBufferFuel, if_neg hc]

theorem processBuffer_step {l : List Char} {e : Nat} (h : findEndPos l = some e) :
    processBuffer l =
      ((if (strip (l.take e)).isEmpty then (processBuffer (l.drop (e + 1))).1
        else strip (l.take e) :: (processBuffer (l.drop (e + 1))).1),
       (processBuffer (l.drop (e + 1))).2) := by
  have hc : '\x1c' ∈ l ∨ '\r' ∈ l := findEndPos_mem h
  have helt : e < l.length := findEndPos_lt_length h
  cases l with
  | nil => simp at helt
  | cons x xs =>
    show processBufferFuel (xs.length + 1) (x :: xs) = _
    have hlen : ((x :: xs).drop (e + 1)).length ≤ xs.length := by
      simp only [List.length_drop, List.length_cons]
      omega
    simp only [processBufferFuel, if_pos hc, h, processBufferFuel_eq hlen]

theorem processBuffer_decomp {t : Char} {b₁ b₂ : List Char}
    (ht : t = '\x1c' ∨ t = '\r') (hb₁ : noTerm b₁) (hb₂ : uniformTerm t b₂) :
    processBuffer (b₁ ++ t :: b₂) =
      ((if (strip b₁).isEmpty then (processBuffer b₂).1
        else strip b₁ :: (processBuffer b₂).1), (processBuffer b₂).2) := by
  have hfe := findEndPos_decomp ht hb₁ hb₂
  rw [processBuffer_step hfe]
  have htake : (b₁ ++ t :: b₂).take b₁.length = b₁ := List.take_left b₁ (t :: b₂)
  have hdrop : (b₁ ++ t :: b₂).drop (b₁.length + 1) = b₂ := by
    have hsplit : b₁ ++ t :: b₂ = (b₁ ++ [t]) ++ b₂ := by simp
    rw [hsplit, List.drop_left' (by simp)]
  rw [htake, hdrop]

theorem processBuffer_rest_noTerm :
    ∀ (n : Nat) (l : List Char), l.length ≤ n → noTerm (processBuffer l).2 := by
  intro n
  induction n with
  | zero =>
    intro l h
    obtain rfl : l = [] := List.eq_nil_of_length_eq_zero (Nat.le_zero.mp h)
    intro _c hm
    simp [processBuffer, processBufferFuel] at hm
  | succ k ih =>
    intro l h
    by_cases hc : ('\x1c' ∈ l ∨ '\r' ∈ l)
    · obtain ⟨e, hfe⟩ := findEndPos_isSome hc
      rw [processBuffer_step hfe]
      exact ih (l.drop (e + 1)) (by simp only [List.length_drop]; omega)
    · push_neg at hc
      rw [processBuffer_noTerm (noTerm_of_not_mem hc.1 hc.2)]
      exact noTerm_of_not_mem hc.1 hc.2

theorem exists_first_split {t : Char} {b : List Char} (h : t ∈ b) :
    ∃ b₁ b₂, b = b₁ ++ t :: b₂ ∧ t ∉ b₁ ∧ b₂.length < b.length := by
  obtain ⟨i, hfi⟩ : ∃ i, findChar b t = some i := by
    cases hf : findChar b t with
    | some i => exact ⟨i, rfl⟩
    | none => exact absurd h (findChar_eq_none.mp hf)
  have hlt := findChar_some_lt hfi
  obtain ⟨hget, hmin⟩ := findChar_getElem hfi
  refine ⟨b.take i, b.drop (i + 1), ?_, ?_, ?_⟩
  · conv_lhs => rw [← List.take_append_drop i b]
    rw [List.drop_eq_getElem_cons hlt]
    have : b[i] = t := by
      have := List.getElem?_eq_getElem hlt
      rw [this] at hget
      exact Option.some.inj hget
    rw [this]
  · intro hm
    obtain ⟨k, hk, hkget⟩ := List.getElem_of_mem hm
    have hki : k < i := by
      have := List.length_take_le i b
      omega
    have : (b.take i)[k]? = some t := by
      rw [List.getElem?_eq_getElem hk, hkget]
    rw [List.getElem?_take_of_lt hki] at this
    exact hmin k hki this
  · simp only [List.length_drop]
    omega

theorem processBuffer_append {t : Char} (ht : t = '\x1c' ∨ t = '\r') :
    ∀ (n : Nat) (b c : List Char), b.length ≤ n → uniformTerm t (b ++ c) →
      processBuffer (b ++ c) =
        ((processBuffer b).1 ++ (processBuffer ((processBuffer b).2 ++ c)).1,
         (processBuffer ((processBuffer b).2 ++ c)).2) := by
  intro n
  induction n with
  | zero =>
    intro b c hlen _
    obtain rfl : b = [] := List.eq_nil_of_length_eq_zero (Nat.le_zero.mp hlen)
    simp [processBuffer, processBufferFuel]
  | succ k ih =>
    intro b c hlen huni
    by_cases htb : t ∈ b
    · obtain ⟨b₁, b₂, rfl, hnot₁, hblen⟩ := exists_first_split htb
      have hb₁sub : b₁ ⊆ (b₁ ++ t :: b₂) ++ c := by
        intro x hx
        simp only [List.mem_append, List.mem_cons]
        exact Or.inl (Or.inl hx)
      have hb₂c_sub : b₂ ++ c ⊆ (b₁ ++ t :: b₂) ++ c := by
        intro x hx
        rcases List.mem_append.mp hx with hx | hx
        · simp only [List.mem_append, List.mem_cons]
          exact Or.inl (Or.inr (Or.inr hx))
        · exact List.mem_append_right _ hx
      have hnt₁ : noTerm b₁ :=
        noTerm_of_uniform_not_mem (uniformTerm_subset hb₁sub huni) hnot₁
      have hu₂c : uniformTerm t (b₂ ++ c) := uniformTerm_subset hb₂c_sub huni
      have hu₂ : uniformTerm t b₂ := (uniformTerm_append.mp hu₂c).1
      have hassoc : (b₁ ++ t :: b₂) ++ c = b₁ ++ t :: (b₂ ++ c) := by simp
      have hlen₂ : b₂.length ≤ k := by
        simp only [List.length_append, List.length_cons] at hlen
        omega
      rw [hassoc, processBuffer_decomp ht hnt₁ hu₂c,
        processBuffer_decomp ht hnt₁ hu₂, ih b₂ c hlen₂ hu₂c]
      by_cases hm : (strip b₁).isEmpty
      · simp only [if_pos hm]
      · simp only [if_neg hm, List.cons_append]
    · have hnt : noTerm b := noTerm_of_uniform_not_mem
        (uniformTerm_subset (List.subset_append_left b c) huni) htb
      rw [processBuffer_noTerm hnt]
      simp

theorem uniformTerm_stream {t : Char} {msgs : List (List Char)}
    (hwf : ∀ m ∈ msgs, WFMessage m) :
    uniformTerm t ((msgs.map (fun m => m ++ [t])).flatten) := by
  intro c hm hc
  obtain ⟨l, hl, hcl⟩ := List.mem_flatten.mp hm
  obtain ⟨m, hmm, rfl⟩ := List.mem_map.mp hl
  rcases List.mem_append.mp hcl with hcm | hct
  · have := (hwf m hmm).2.1 c hcm
    rcases hc with hc | hc
    · exact absurd hc this.1
    · exact absurd hc this.2
  · simpa using hct

theorem processBuffer_stream {t : Char} (ht : t = '\x1c' ∨ t = '\r') :
    ∀ (msgs : List (List Char)), (∀ m ∈ msgs, WFMessage m) →
      processBuffer ((msgs.map (fun m => m ++ [t])).flatten) = (msgs, []) := by
  intro msgs
  induction msgs with
  | nil =>
    intro _
    simp [processBuffer, processBufferFuel]
  | cons m ms ih =>
    intro hwf
    have hm := hwf m (List.mem_cons_self m ms)
    have hrest : ∀ m' ∈ ms, WFMessage m' := fun m' hm' => hwf m' (List.mem_cons_of_mem m hm')
    rw [List.map_cons, List.flatten_cons]
    have hsplit : (m ++ [t]) ++ (ms.map (fun m' => m' ++ [t])).flatten
        = m ++ t :: (ms.map (fun m' => m' ++ [t])).flatten := by simp
    rw [hsplit, processBuffer_decomp ht hm.2.1 (uniformTerm_stream hrest), hm.2.2,
      ih hrest]
    have hne : m.isEmpty = false := List.isEmpty_eq_false.mpr hm.1
    simp [hne]

theorem feedChunksGo_spec {t : Char} (ht : t = '\x1c' ∨ t = '\r') :
    ∀ (cs : List (List Char)) (acc : List (List Char)) (buf : List Char),
      uniformTerm t (buf ++ cs.flatten) → processBuffer buf = ([], buf) →
      feedChunksGo acc buf cs =
        (acc ++ (processBuffer (buf ++ cs.flatten)).1,
         (processBuffer (buf ++ cs.flatten)).2) := by
  intro cs
  induction cs with
  | nil =>
    intro acc buf _ hq
    simp only [feedChunksGo, List.flatten_nil, List.append_nil, hq]
  | cons c cs ih =>
    intro acc buf huni hq
    simp only [feedChunksGo]
    have hrest : noTerm (processBuffer (buf ++ c)).2 :=
      processBuffer_rest_noTerm (buf ++ c).length _ le_rfl
    have hq2 : processBuffer (processBuffer (buf ++ c)).2
        = ([], (processBuffer (buf ++ c)).2) := processBuffer_noTerm hrest
    have huni_all : uniformTerm t ((buf ++ c) ++ cs.flatten) := by
      have : (buf ++ c) ++ cs.flatten = buf ++ (c :: cs).flatten := by simp
      rw [this]
      exact huni
    have huni2 : uniformTerm t ((processBuffer (buf ++ c)).2 ++ cs.flatten) := by
      rw [uniformTerm_append]
      exact ⟨uniformTerm_of_noTerm hrest,
        (uniformTerm_append.mp huni_all).2⟩
    rw [ih (acc ++ (processBuffer (buf ++ c)).1) (processBuffer (buf ++ c)).2
      huni2 hq2]
    have happ := processBuffer_append ht (buf ++ c).length (buf ++ c) cs.flatten
      le_rfl huni_all
    have hstream : buf ++ (c :: cs).flatten = (buf ++ c) ++ cs.flatten := by simp
    rw [hstream, happ]
    simp

/-- Claim C2, counterexample: in the buffer `"A\rB\x1c"` the first
terminator of either kind is the carriage return at index 1, but the code
(`findEndPos`, mirroring `buffer.find('\x1c')` with `'\r'` only as the
fallback) places the boundary at the file separator at index 3, extracting
`"A\rB"` as one message — not the prefix ending at the first occurrence of
either terminator. -/
theorem framing_precedence_cex :
    firstEitherIdx (chars ("A\rB\x1c")) = some 1
    ∧ findEndPos (chars ("A\rB\x1c")) = some 3
    ∧ findEndPos (chars ("A\rB\x1c")) ≠ firstEitherIdx (chars ("A\rB\x1c"))
    ∧ (processBuffer (chars ("A\rB\x1c"))).1 = [chars ("A\rB")] := by decide

/-- Claim C2 (amended): the Frame Splitter extracts the prefix ending at
the first occurrence of the hard terminator 0x1C whenever one is present
anywhere in the buffer — even when a carriage return occurs earlier — and
only when no hard terminator is present is the boundary the first carriage
return. -/
theorem framing_precedence_amended :
    ∀ (buffer : List Char) (e : Nat), findEndPos buffer = some e →
      ('\x1c' ∈ buffer →
        buffer[e]? = some '\x1c' ∧ ∀ k, k < e → buffer[k]? ≠ some '\x1c')
      ∧ ('\x1c' ∉ buffer →
        buffer[e]? = some '\r' ∧ ∀ k, k < e → buffer[k]? ≠ some '\r') := by
  intro buffer e h
  constructor
  · intro hfs
    cases hf : findChar buffer '\x1c' with
    | some i =>
      unfold findEndPos at h
      rw [hf] at h
      obtain rfl : i = e := Option.some.inj h
      exact findChar_getElem hf
    | none => exact absurd hfs (findChar_eq_none.mp hf)
  · intro hfs
    have hf : findChar buffer '\x1c' = none := findChar_eq_none.mpr hfs
    unfold findEndPos at h
    rw [hf] at h
    exact findChar_getElem h

/-- Claim C2, witness for the amended theorem at the counterexample
buffer: the boundary 3 indeed holds the hard terminator. -/
theorem framing_precedence_amended_witness :
    (chars ("A\rB\x1c"))[3]? = some '\x1c' :=
  ((framing_precedence_amended (chars ("A\rB\x1c")) 3 (by decide)).1 (by decide)).1

/-- Claim C6, counterexample: the stream `"A\rB\x1c"` consists of the two
well-formed messages `"A"` and `"B"`, each followed by a terminator (soft,
then hard); delivered as a single read chunk, the Frame Splitter yields
one message `"A\rB"` — not two, and with the first message's content
altered — so the yield is not independent of chunking. -/
theorem frame_splitter_cex :
    chars ("A\rB\x1c") = chars ("A") ++ '\r' :: (chars ("B") ++ ['\x1c'])
    ∧ WFMessage (chars ("A")) ∧ WFMessage (chars ("B"))
    ∧ feedChunks [chars ("A\rB\x1c")] = ([chars ("A\rB")], [])
    ∧ (feedChunks [chars ("A\rB\x1c")]).1 ≠ [chars ("A"), chars ("B")]
    ∧ (feedChunks [chars ("A\rB\x1c")]).1.length = 1 := by decide

/-- Claim C6 (amended): for any byte stream containing N well-formed
messages each concatenated with the same terminator (all hard 0x1C, or all
soft 0x0D), the Frame Splitter yields exactly the N message texts, in the
original order, with terminators stripped and no content altered,
regardless of how the stream is chunked into reads, and the final buffer
is empty. -/
theorem frame_splitter_complete (t : Char) (msgs chunks : List (List Char))
    (ht : t = '\x1c' ∨ t = '\r')
    (hwf : ∀ m ∈ msgs, WFMessage m)
    (hstream : chunks.flatten = (msgs.map (fun m => m ++ [t])).flatten) :
    feedChunks chunks = (msgs, []) := by
  unfold feedChunks
  have huni : uniformTerm t ([] ++ chunks.flatten) := by
    simp only [List.nil_append, hstream]
    exact uniformTerm_stream hwf
  rw [feedChunksGo_spec ht chunks [] [] huni rfl]
  simp only [List.nil_append, hstream, processBuffer_stream ht msgs hwf]

/-- Claim C6, witness: a three-message hard-terminated stream delivered in
chunks that split messages across reads is reassembled exactly. -/
theorem frame_splitter_complete_witness :
    feedChunks [chars ("MS"), chars ("H|X\x1cPID|1\x1cOB"), chars ("X|2\x1c")]
      = ([chars ("MSH|X"), chars ("PID|1"), chars ("OBX|2")], []) :=
  frame_splitter_complete '\x1c'
    [chars ("MSH|X"), chars ("PID|1"), chars ("OBX|2")]
    [chars ("MS"), chars ("H|X\x1cPID|1\x1cOB"), chars ("X|2\x1c")]
    (Or.inl rfl) (by decide) (by decide)

theorem decode_drop_255 (bs : List Nat) :
    decodeUtf8Ignore (255 :: bs) = decodeUtf8Ignore bs := by
  show utf8DecodeFuel (bs.length + 1) (255 :: bs) = decodeUtf8Ignore bs
  simp [utf8DecodeFuel, decodeUtf8Ignore]

theorem decode_cons_ascii {b : Nat} (hb : b < 128) (bs : List Nat) :
    decodeUtf8Ignore (b :: bs) = Char.ofNat b :: decodeUtf8Ignore bs := by
  show utf8DecodeFuel (bs.length + 1) (b :: bs) = _
  simp only [utf8DecodeFuel]
  rw [if_pos hb]
  rfl

/-- Claim C10, counterexample: the non-empty chunk `[0xFF]` decodes to the
empty string under `errors='ignore'`, and `handle_client`'s
`if not data: break` then treats it as end-of-stream and terminates the
connection — so invalid bytes CAN terminate the connection, contrary to
the claim. -/
theorem decode_ignore_cex :
    decodeUtf8Ignore [255] = [] ∧ ([255] : List Nat) ≠ []
    ∧ recvStep [] [255] = RecvOutcome.closed := by decide

/-- Claim C10 (amended): undecodable bytes are silently discarded at decode
time, before framing — dropping an invalid lead byte such as 0xFF leaves
the decode of the remaining bytes (and hence the whole receive step)
unchanged, while a decodable (ASCII) byte enters the frame buffer as
itself; the decoder is total, so invalid bytes never raise an error or
produce a negative acknowledgment — but a non-empty chunk decoding to the
empty string is treated as a peer close and terminates the connection. -/
theorem decode_ignore_amended (buffer : List Char) (bs : List Nat) :
    decodeUtf8Ignore (255 :: bs) = decodeUtf8Ignore bs
    ∧ (∀ b, b < 128 →
        decodeUtf8Ignore (b :: bs) = Char.ofNat b :: decodeUtf8Ignore bs)
    ∧ (decodeUtf8Ignore bs = [] →
        recvStep buffer (255 :: bs) = RecvOutcome.closed)
    ∧ recvStep buffer (255 :: bs) = recvStep buffer bs := by
  refine ⟨decode_drop_255 bs, fun b hb => decode_cons_ascii hb bs, ?_, ?_⟩
  · intro hnil
    simp [recvStep, decode_drop_255 bs, hnil]
  · simp only [recvStep, decode_drop_255 bs]

/-- Claim C10, witness: dropping the leading invalid byte leaves the
receive step unchanged; an all-invalid chunk closes the connection; an
ASCII byte decodes to itself. -/
theorem decode_ignore_amended_witness :
    recvStep [] [255, 65] = recvStep [] [65]
    ∧ recvStep [] [255, 255] = RecvOutcome.closed
    ∧ decodeUtf8Ignore [65, 66] = Char.ofNat 65 :: decodeUtf8Ignore [66] :=
  ⟨(decode_ignore_amended [] [65]).2.2.2,
   (decode_ignore_amended [] [255]).2.2.1 (by decide),
   (decode_ignore_amended [] [66]).2.1 65 (by decide)⟩

/-- Claim C7: for every controlId and errorText, `create_nak` produces a
two-segment reply (header, then MSA segment, each ended by a segment
separator) whose MSA segment carries code AE, the given controlId, and the
errorText truncated to its first `min 100 (length errorText)` characters —
so truncation to 100 happens exactly when the text is longer than 100 —
and the whole reply is terminated with the hard terminator 0x1C. -/
theorem create_nak_spec (ts c e : List Char) :
    create_nak ts c e =
      (chars ("MSH|^~\\&|HL7_SERVER||||") ++ ts ++ chars ("||ACK|") ++ c ++
        chars ("_NAK|P|2.3.1")) ++ chars ("\r") ++
      ((chars ("MSA|AE|") ++ c ++ chars ("|") ++ e.take 100) ++ chars ("\r") ++
        chars ("\x1c"))
    ∧ (e.take 100).length = min 100 e.length
    ∧ (create_nak ts c e).getLast? = some '\x1c' := by
  refine ⟨?_, List.length_take 100 e, ?_⟩
  · unfold create_nak
    have hsplit : chars ("_NAK|P|2.3.1\r") =
        chars ("_NAK|P|2.3.1") ++ chars ("\r") := rfl
    rw [hsplit]
    simp [List.append_assoc]
  · unfold create_nak
    rw [List.getLast?_append]
    rfl

/-- Helper: `create_ack` succeeds exactly on MSH segments long enough for
the `original_msh[3]` / `original_msh[4]` accesses. -/
theorem create_ack_eq_some {ts : List Char} {msh : List (List Char)}
    (h4 : 4 < msh.length) : ∃ a, create_ack ts msh = some a := by
  have h3 : 3 < msh.length := by omega
  unfold create_ack
  rw [List.getElem?_eq_getElem h3, List.getElem?_eq_getElem h4]
  exact ⟨_, rfl⟩

/-- Claim C8: for every original message header long enough to carry a
control id (field 10 present), `create_ack` produces a two-segment reply
whose header echoes the original control id suffixed `_ACK`, whose MSA
segment carries code AA plus the original control id, and which is
terminated with the hard terminator 0x1C. -/
theorem create_ack_spec (ts : List Char) (msh : List (List Char))
    (h : 10 < msh.length) :
    create_ack ts msh = some (
      (chars ("MSH|^~\\&|HL7_SERVER||") ++ msh.get ⟨3, by omega⟩ ++ chars ("|") ++
        msh.get ⟨4, by omega⟩ ++ chars ("|") ++ ts ++ chars ("||ACK|") ++
        msh.get ⟨10, h⟩ ++ chars ("_ACK|P|2.3.1")) ++ chars ("\r") ++
      ((chars ("MSA|AA|") ++ msh.get ⟨10, h⟩ ++ chars ("|Message accepted")) ++
        chars ("\r") ++ chars ("\x1c")))
    ∧ ∀ a, create_ack ts msh = some a → a.getLast? = some '\x1c' := by
  have h3 : 3 < msh.length := by omega
  have h4 : 4 < msh.length := by omega
  constructor
  · unfold create_ack
    rw [List.getElem?_eq_getElem h3, List.getElem?_eq_getElem h4, dif_pos h]
    have hsplit1 : chars ("_ACK|P|2.3.1\r") =
        chars ("_ACK|P|2.3.1") ++ chars ("\r") := rfl
    have hsplit2 : chars ("|Message accepted\r") =
        chars ("|Message accepted") ++ chars ("\r") := rfl
    rw [hsplit1, hsplit2]
    simp [List.append_assoc, List.get_eq_getElem]
  · intro a ha
    unfold create_ack at ha
    rw [List.getElem?_eq_getElem h3, List.getElem?_eq_getElem h4] at ha
    obtain rfl : _ = a := Option.some.inj ha
    rw [List.getLast?_append]
    rfl

/-- Claim C8, witness: a concrete eleven-field MSH segment with control id
`CTRL1` yields exactly the expected ACK reply. -/
theorem create_ack_spec_witness :
    create_ack (chars ("20240101120000"))
      [chars ("MSH"), chars ("|"), chars ("^~\\&"), chars ("DEV"), chars ("HOSP"),
       chars (""), chars ("T"), chars (""), chars ("ORU^W01"), chars ("P"),
       chars ("CTRL1")]
      = some (chars
        ("MSH|^~\\&|HL7_SERVER||DEV|HOSP|20240101120000||ACK|CTRL1_ACK|P|2.3.1\rMSA|AA|CTRL1|Message accepted\r\x1c")) := by
  rw [(create_ack_spec (chars ("20240101120000")) _ (by decide)).1]
  decide

/-- Claim C9: every negative acknowledgment built by `process_message`
carries the literal control id `"UNKNOWN"` — header control id field
`UNKNOWN_NAK`, MSA control id field `UNKNOWN` — never the failing
message's own control id, even when the failure (here: the ACK send
raising) occurred after the control id had been successfully extracted
from a full-length MSH segment. -/
theorem nak_unknown_control_id (env : MsgEnv) (max_files : Nat)
    (dir : List StoredFile) :
    (∀ s, (process_message env max_files dir).2.1 = Reply.nakSent s →
      ∃ e, s = create_nak env.nakTimestamp (chars ("UNKNOWN")) e)
    ∧ (∀ msh, env.parseResult = .ok msh → 10 < msh.length →
        env.sendOk = false → env.nakSendOk = true →
        (process_message env max_files dir).2.1 =
          Reply.nakSent (create_nak env.nakTimestamp (chars ("UNKNOWN"))
            env.sendErrText))
    ∧ (∀ ts e, create_nak ts (chars ("UNKNOWN")) e =
        chars ("MSH|^~\\&|HL7_SERVER||||") ++ ts ++
          chars ("||ACK|UNKNOWN_NAK|P|2.3.1\r") ++
          chars ("MSA|AE|UNKNOWN|") ++ e.take 100 ++ chars ("\r") ++
          chars ("\x1c")) := by
  refine ⟨?_, ?_, ?_⟩
  · intro s h
    unfold process_message at h
    cases hp : env.parseResult with
    | error e =>
      rw [hp] at h
      dsimp only at h
      by_cases hn : env.nakSendOk = true
      · rw [if_pos hn] at h
        exact ⟨e, (Reply.nakSent.inj h).symm⟩
      · rw [if_neg hn] at h
        exact Reply.noConfusion h
    | ok msh =>
      rw [hp] at h
      dsimp only at h
      cases hca : create_ack env.ackTimestamp msh with
      | none =>
        rw [hca] at h
        dsimp only at h
        by_cases hn : env.nakSendOk = true
        · rw [if_pos hn] at h
          exact ⟨indexErrorText, (Reply.nakSent.inj h).symm⟩
        · rw [if_neg hn] at h
          exact Reply.noConfusion h
      | some ack =>
        rw [hca] at h
        dsimp only at h
        by_cases hs : env.sendOk = true
        · rw [if_pos hs] at h
          dsimp only at h
          exact Reply.noConfusion h
        · rw [if_neg hs] at h
          dsimp only at h
          by_cases hn : env.nakSendOk = true
          · rw [if_pos hn] at h
            exact ⟨env.sendErrText, (Reply.nakSent.inj h).symm⟩
          · rw [if_neg hn] at h
            exact Reply.noConfusion h
  · intro msh hp h10 hs hn
    obtain ⟨a, hca⟩ : ∃ a, create_ack env.ackTimestamp msh = some a :=
      create_ack_eq_some (by omega)
    unfold process_message
    rw [hp]
    dsimp only
    rw [hca]
    dsimp only
    rw [if_neg (by simp [hs]), if_pos hn]
  · intro ts e
    unfold create_nak
    have h1 : chars ("||ACK|UNKNOWN_NAK|P|2.3.1\r") =
        chars ("||ACK|") ++ chars ("UNKNOWN") ++ chars ("_NAK|P|2.3.1\r") := rfl
    have h2 : chars ("MSA|AE|UNKNOWN|") =
        chars ("MSA|AE|") ++ chars ("UNKNOWN") ++ chars ("|") := rfl
    rw [h1, h2]
    simp [List.append_assoc]

/-- Claim C9, witness: a message whose MSH segment has a perfectly
extractable control id `CTRL1` but whose ACK send fails is answered with a
NAK carrying `UNKNOWN`, not `CTRL1`. -/
theorem nak_unknown_control_id_witness :
    (process_message
      { parseResult := Except.ok
          [chars ("MSH"), chars ("|"), chars ("^~\\&"), chars ("DEV"),
           chars ("HOSP"), chars (""), chars ("T"), chars (""),
           chars ("ORU^W01"), chars ("P"), chars ("CTRL1")],
        writeOk := true, sendOk := false, nakSendOk := true,
        unlinkOk := fun _ => true, fileTimestamp := chars ("20240101_120000"),
        ackTimestamp := chars ("A"), nakTimestamp := chars ("N"),
        sendErrText := chars ("Broken pipe"), newMtime := 7 } 10 []).2.1
    = Reply.nakSent (create_nak (chars ("N")) (chars ("UNKNOWN"))
        (chars ("Broken pipe"))) :=
  (nak_unknown_control_id _ 10 []).2.1 _ rfl (by decide) rfl rfl

/-- Claim C4, counterexample: a message that parses fine but whose file
write fails (`writeOk := false`, a persistence failure) is answered with a
positive acknowledgment, not a NAK — the failure is swallowed inside
`save_message`'s own `try/except`, so a "failure during persistence" never
reaches the handler's NAK path. -/
theorem per_message_recovery_cex :
    ((process_message
      { parseResult := Except.ok
          [chars ("MSH"), chars ("|"), chars ("^~\\&"), chars ("DEV"),
           chars ("HOSP"), chars (""), chars ("T"), chars (""),
           chars ("ORU^W01"), chars ("P"), chars ("CTRL1")],
        writeOk := false, sendOk := true, nakSendOk := true,
        unlinkOk := fun _ => true, fileTimestamp := chars ("F"),
        ackTimestamp := chars ("A"), nakTimestamp := chars ("N"),
        sendErrText := chars ("E"), newMtime := 0 } 10 []).2.1).isNak = false
    ∧ ((process_message
      { parseResult := Except.ok
          [chars ("MSH"), chars ("|"), chars ("^~\\&"), chars ("DEV"),
           chars ("HOSP"), chars (""), chars ("T"), chars (""),
           chars ("ORU^W01"), chars ("P"), chars ("CTRL1")],
        writeOk := false, sendOk := true, nakSendOk := true,
        unlinkOk := fun _ => true, fileTimestamp := chars ("F"),
        ackTimestamp := chars ("A"), nakTimestamp := chars ("N"),
        sendErrText := chars ("E"), newMtime := 0 } 10 []).2.1)
      ≠ Reply.noReply := by decide

/-- Claim C4 (amended): processing a message never terminates the handler
loop (every `process_message` path returns with the continue flag set);
a failure during parsing is answered with `create_nak` carrying the caught
failure's description and the loop continues; but a persistence failure is
swallowed inside the store and answered with a positive acknowledgment
rather than a NAK. -/
theorem per_message_recovery_amended (env : MsgEnv) (max_files : Nat)
    (dir : List StoredFile) :
    ((process_message env max_files dir).2.2 = true)
    ∧ (∀ e, env.parseResult = .error e → env.nakSendOk = true →
        process_message env max_files dir =
          (dir, Reply.nakSent (create_nak env.nakTimestamp (chars ("UNKNOWN")) e),
           true))
    ∧ (∀ msh, env.parseResult = .ok msh → 4 < msh.length → env.sendOk = true →
        env.writeOk = false →
        ((process_message env max_files dir).2.1).isNak = false) := by
  refine ⟨?_, ?_, ?_⟩
  · unfold process_message
    cases hp : env.parseResult with
    | error e => rfl
    | ok msh =>
      dsimp only
      cases hca : create_ack env.ackTimestamp msh with
      | none => rfl
      | some ack =>
        dsimp only
        by_cases hs : env.sendOk = true
        · rw [if_pos hs]
        · rw [if_neg hs]
  · intro e hp hn
    unfold process_message
    rw [hp]
    dsimp only
    rw [if_pos hn]
  · intro msh hp h4 hs _hw
    obtain ⟨a, hca⟩ : ∃ a, create_ack env.ackTimestamp msh = some a :=
      create_ack_eq_some h4
    unfold process_message
    rw [hp]
    dsimp only
    rw [hca]
    dsimp only
    rw [if_pos hs]
    rfl

/-- Claim C4, witness: a parse failure is answered with a NAK carrying the
failure's description and the loop continues. -/
theorem per_message_recovery_amended_witness :
    process_message
      { parseResult := Except.error (chars ("Segment MSH not found")),
        writeOk := true, sendOk := true, nakSendOk := true,
        unlinkOk := fun _ => true, fileTimestamp := chars ("F"),
        ackTimestamp := chars ("A"), nakTimestamp := chars ("N"),
        sendErrText := chars ("E"), newMtime := 0 } 10 []
    = ([], Reply.nakSent (create_nak (chars ("N")) (chars ("UNKNOWN"))
        (chars ("Segment MSH not found"))), true) :=
  (per_message_recovery_amended _ 10 []).2.1 _ rfl rfl

/-- Claim C3, counterexample: `save_message` returns `None` both when the
write succeeds and when it fails — the two outcomes are indistinguishable
to the caller, no generated filename is returned on success and no I/O
failure is surfaced on a failed write; the spec-modelled interface
`save_spec` would have returned `Except.ok` with the filename instead. -/
theorem save_result_cex :
    (save_message (fun _ => true) true 10 [] ⟨chars ("f.hl7"), 0⟩).2 = none
    ∧ (save_message (fun _ => true) false 10 [] ⟨chars ("f.hl7"), 0⟩).2 = none
    ∧ (save_message (fun _ => true) true 10 [] ⟨chars ("f.hl7"), 0⟩).2
      = (save_message (fun _ => true) false 10 [] ⟨chars ("f.hl7"), 0⟩).2
    ∧ save_spec true (chars ("f.hl7")) = Except.ok (chars ("f.hl7"))
    ∧ save_spec false (chars ("f.hl7")) = Except.error () :=
  ⟨by decide, by decide, by decide, rfl, rfl⟩

/-- Claim C3 (amended): `save_message` returns no value on every path —
write failures are logged and swallowed inside the store (only the state
effect differs: no record is added), so the calling Connection Handler
cannot distinguish a failed persistence from a successful one and replies
with a positive acknowledgment regardless. -/
theorem save_result_amended (unlinkOk : List Char → Bool) (writeOk : Bool)
    (max_files : Nat) (dir : List StoredFile) (f : StoredFile) :
    (save_message unlinkOk writeOk max_files dir f).2 = none
    ∧ (writeOk = false → (save_message unlinkOk writeOk max_files dir f).1
        = (if max_files ≤ dir.length then cleanup_old_files unlinkOk dir else dir))
    ∧ (∀ (env : MsgEnv) msh, env.parseResult = .ok msh → 4 < msh.length →
        env.sendOk = true →
        ∃ a, (process_message env max_files dir).2.1 = Reply.ackSent a) := by
  refine ⟨?_, ?_, ?_⟩
  · unfold save_message
    by_cases hw : writeOk = true
    · rw [if_pos hw]
    · rw [if_neg hw]
  · intro hw
    subst hw
    unfold save_message
    rfl
  · intro env msh hp h4 hs
    obtain ⟨a, hca⟩ : ∃ a, create_ack env.ackTimestamp msh = some a :=
      create_ack_eq_some h4
    refine ⟨a, ?_⟩
    unfold process_message
    rw [hp]
    dsimp only
    rw [hca]
    dsimp only
    rw [if_pos hs]

/-- Claim C3, witness: instantiating the amended statement at a failing
write over a concrete store. -/
theorem save_result_amended_witness :
    (save_message (fun _ => true) false 3 [⟨chars ("a"), 0⟩] ⟨chars ("b"), 1⟩).1
      = [⟨chars ("a"), 0⟩] :=
  ((save_result_amended (fun _ => true) false 3 [⟨chars ("a"), 0⟩]
    ⟨chars ("b"), 1⟩).2.1 rfl).trans (by decide)

theorem sortedPairs_length (dir : List StoredFile) :
    (sortedPairs dir).length = dir.length := by
  unfold sortedPairs
  rw [List.length_insertionSort, List.length_map]

theorem mem_sortedPairs {dir : List StoredFile} {p : Nat × List Char} :
    p ∈ sortedPairs dir ↔ p ∈ dir.map (fun f => (f.mtime, f.name)) :=
  List.mem_insertionSort mtimeLe

theorem sortedPairs_sorted (dir : List StoredFile) :
    List.Sorted mtimeLe (sortedPairs dir) :=
  List.sorted_insertionSort mtimeLe _

theorem sortedPairs_names_nodup {dir : List StoredFile}
    (hnd : (dir.map (fun f => f.name)).Nodup) :
    ((sortedPairs dir).map (fun p => p.2)).Nodup := by
  have hperm : List.Perm ((sortedPairs dir).map (fun p => p.2))
      ((dir.map (fun f => (f.mtime, f.name))).map (fun p => p.2)) :=
    (List.perm_insertionSort mtimeLe _).map _
  have heq : (dir.map (fun f => (f.mtime, f.name))).map (fun p => p.2)
      = dir.map (fun f => f.name) := by
    rw [List.map_map]
    rfl
  rw [heq] at hperm
  exact hperm.nodup_iff.mpr hnd

theorem pairs_name_inj {dir : List StoredFile}
    (hnd : (dir.map (fun f => f.name)).Nodup) :
    ∀ p ∈ dir.map (fun f => (f.mtime, f.name)),
      ∀ q ∈ dir.map (fun f => (f.mtime, f.name)), p.2 = q.2 → p = q := by
  induction dir with
  | nil => simp
  | cons f fs ih =>
    simp only [List.map_cons, List.nodup_cons] at hnd
    intro p hp q hq hpq
    rcases List.mem_cons.mp hp with hp | hp <;> rcases List.mem_cons.mp hq with hq | hq
    · rw [hp, hq]
    · exfalso
      obtain ⟨g, hg, hgq⟩ := List.mem_map.mp hq
      apply hnd.1
      have hq2 : q.2 = g.name := by rw [← hgq]
      have hfg : f.name = g.name := by
        rw [← hq2, ← hpq, hp]
      rw [hfg]
      exact List.mem_map_of_mem _ hg
    · exfalso
      obtain ⟨g, hg, hgp⟩ := List.mem_map.mp hp
      apply hnd.1
      have hp2 : p.2 = g.name := by rw [← hgp]
      have hfg : f.name = g.name := by
        rw [← hp2, hpq, hq]
      rw [hfg]
      exact List.mem_map_of_mem _ hg
    · exact ih hnd.2 p hp q hq hpq

theorem unlinkFiles_eq_filter (ok : List Char → Bool) :
    ∀ (ps : List (Nat × List Char)) (dir : List StoredFile),
      unlinkFiles ok ps dir
        = dir.filter (fun f => decide (∀ p ∈ ps, ok p.2 = true → f.name ≠ p.2)) := by
  intro ps
  induction ps with
  | nil =>
    intro dir
    simp only [unlinkFiles]
    exact (List.filter_eq_self.mpr (fun a _ => by simp)).symm
  | cons p ps ih =>
    intro dir
    simp only [unlinkFiles]
    by_cases hok : ok p.2 = true
    · rw [if_pos hok, ih, List.filter_filter]
      apply List.filter_congr
      intro f _
      have hiff : ((∀ q ∈ ps, ok q.2 = true → f.name ≠ q.2) ∧ f.name ≠ p.2)
          ↔ (∀ q ∈ p :: ps, ok q.2 = true → f.name ≠ q.2) := by
        rw [List.forall_mem_cons]
        simp [hok, and_comm]
      rw [← decide_eq_decide.mpr hiff, Bool.decide_and]
    · rw [if_neg hok, ih]
      apply List.filter_congr
      intro f _
      have hiff : (∀ q ∈ ps, ok q.2 = true → f.name ≠ q.2)
          ↔ (∀ q ∈ p :: ps, ok q.2 = true → f.name ≠ q.2) := by
        rw [List.forall_mem_cons]
        simp [hok]
      rw [decide_eq_decide.mpr hiff]

theorem filter_ne_length {dir : List StoredFile} {a : List Char}
    (hnd : (dir.map (fun f => f.name)).Nodup)
    (hmem : a ∈ dir.map (fun f => f.name)) :
    (dir.filter (fun f => f.name ≠ a)).length = dir.length - 1 := by
  induction dir with
  | nil => simp at hmem
  | cons f fs ih =>
    simp only [List.map_cons, List.nodup_cons] at hnd
    by_cases hf : f.name = a
    · have hnotin : a ∉ fs.map (fun g => g.name) := by
        rw [← hf]
        exact hnd.1
      have hfs : fs.filter (fun g => g.name ≠ a) = fs := by
        apply List.filter_eq_self.mpr
        intro g hg
        simp only [decide_eq_true_eq]
        intro hga
        exact hnotin (hga ▸ List.mem_map_of_mem (fun x => x.name) hg)
      simp only [List.filter_cons]
      rw [if_neg (by simp [hf]), hfs]
      simp
    · have hmem' : a ∈ fs.map (fun g => g.name) := by
        rcases List.mem_cons.mp hmem with h | h
        · exact absurd h.symm hf
        · exact h
      have hlen := ih hnd.2 hmem'
      have hpos : 0 < fs.length := by
        rcases List.mem_map.mp hmem' with ⟨g, hg, _⟩
        exact List.length_pos.mpr (fun hfs => by rw [hfs] at hg; simp at hg)
      simp only [List.filter_cons]
      rw [if_pos (by simp [hf])]
      simp only [List.length_cons, hlen]
      omega

theorem unlinkFiles_true_length :
    ∀ (ps : List (Nat × List Char)) (dir : List StoredFile),
      (∀ p ∈ ps, p.2 ∈ dir.map (fun f => f.name)) →
      (ps.map (fun p => p.2)).Nodup →
      (dir.map (fun f => f.name)).Nodup →
      (unlinkFiles (fun _ => true) ps dir).length = dir.length - ps.length := by
  intro ps
  induction ps with
  | nil =>
    intro dir _ _ _
    simp [unlinkFiles]
  | cons p ps ih =>
    intro dir hmem hndp hnd
    simp only [List.map_cons, List.nodup_cons] at hndp
    have hp2 : p.2 ∈ dir.map (fun f => f.name) := hmem p (List.mem_cons_self p ps)
    have hlen1 : (dir.filter (fun f => f.name ≠ p.2)).length = dir.length - 1 :=
      filter_ne_length hnd hp2
    have hmem' : ∀ q ∈ ps,
        q.2 ∈ (dir.filter (fun f => f.name ≠ p.2)).map (fun f => f.name) := by
      intro q hq
      obtain ⟨g, hg, hgname⟩ := List.mem_map.mp (hmem q (List.mem_cons_of_mem p hq))
      have hne : g.name ≠ p.2 := by
        rw [hgname]
        intro hqp
        exact hndp.1 (hqp ▸ List.mem_map_of_mem (fun r => r.2) hq)
      exact List.mem_map.mpr ⟨g, List.mem_filter.mpr ⟨hg, by simp [hne]⟩, hgname⟩
    have hndfilter : ((dir.filter (fun f => f.name ≠ p.2)).map
        (fun f => f.name)).Nodup :=
      ((List.filter_sublist dir).map (fun f => f.name)).nodup hnd
    have hpos : 0 < dir.length := by
      rcases List.mem_map.mp hp2 with ⟨g, hg, _⟩
      exact List.length_pos.mpr (fun hdir => by rw [hdir] at hg; simp at hg)
    simp only [unlinkFiles, if_true]
    rw [ih _ hmem' hndp.2 hndfilter, hlen1]
    simp only [List.length_cons]
    omega

theorem take_names_nodup {dir : List StoredFile} {k : Nat}
    (hnd : (dir.map (fun f => f.name)).Nodup) :
    (((sortedPairs dir).take k).map (fun p => p.2)).Nodup := by
  have hsub : List.Sublist (((sortedPairs dir).take k).map (fun p => p.2))
      ((sortedPairs dir).map (fun p => p.2)) :=
    (List.take_sublist k (sortedPairs dir)).map _
  exact hsub.nodup (sortedPairs_names_nodup hnd)

theorem take_mem_names {dir : List StoredFile} {k : Nat} {p : Nat × List Char}
    (hp : p ∈ (sortedPairs dir).take k) : p.2 ∈ dir.map (fun f => f.name) := by
  have hps : p ∈ sortedPairs dir := (List.take_sublist k _).subset hp
  obtain ⟨g, hg, hgp⟩ := List.mem_map.mp (mem_sortedPairs.mp hps)
  rw [← hgp]
  exact List.mem_map_of_mem _ hg

theorem cleanup_true_length (dir : List StoredFile)
    (hnd : (dir.map (fun f => f.name)).Nodup) :
    (cleanup_old_files (fun _ => true) dir).length = dir.length - dir.length / 2 := by
  unfold cleanup_old_files
  have hsl : (sortedPairs dir).length = dir.length := sortedPairs_length dir
  by_cases hk : 0 < (sortedPairs dir).length / 2
  · rw [if_pos hk]
    have hmem : ∀ p ∈ (sortedPairs dir).take ((sortedPairs dir).length / 2),
        p.2 ∈ dir.map (fun f => f.name) := fun p hp => take_mem_names hp
    have hlen := unlinkFiles_true_length
      ((sortedPairs dir).take ((sortedPairs dir).length / 2)) dir hmem
      (take_names_nodup hnd) hnd
    rw [hlen, List.length_take]
    have hhalf : (sortedPairs dir).length / 2 ≤ (sortedPairs dir).length :=
      Nat.div_le_self _ _
    rw [hsl] at hhalf ⊢
    omega
  · rw [if_neg hk]
    rw [hsl] at hk
    omega

theorem cleanup_true_retained (dir : List StoredFile)
    (hnd : (dir.map (fun f => f.name)).Nodup) :
    ∀ f ∈ cleanup_old_files (fun _ => true) dir, ∀ g ∈ dir,
      g ∉ cleanup_old_files (fun _ => true) dir → g.mtime ≤ f.mtime := by
  intro f hf g hg hgout
  by_cases hk : 0 < (sortedPairs dir).length / 2
  case neg =>
    exfalso
    apply hgout
    unfold cleanup_old_files
    rw [if_neg hk]
    exact hg
  case pos =>
    unfold cleanup_old_files at hf hgout
    rw [if_pos hk, unlinkFiles_eq_filter] at hf hgout
    set k := (sortedPairs dir).length / 2 with hkdef
    -- the surviving record f names no pair of the removal prefix
    have hfdir : f ∈ dir := (List.mem_filter.mp hf).1
    have hfpred : ∀ p ∈ (sortedPairs dir).take k,
        (fun _ => true) p.2 = true → f.name ≠ p.2 := by
      have := (List.mem_filter.mp hf).2
      rwa [decide_eq_true_eq] at this
    -- the evicted record g is named by some pair of the removal prefix
    have hgpair : ∃ p ∈ (sortedPairs dir).take k, g.name = p.2 := by
      by_contra hno
      push_neg at hno
      apply hgout
      apply List.mem_filter.mpr ⟨hg, ?_⟩
      rw [decide_eq_true_eq]
      intro p hp _
      exact hno p hp
    obtain ⟨p, hp, hgname⟩ := hgpair
    -- identify that pair with g's own (mtime, name) pair
    have hppairs : p ∈ dir.map (fun r => (r.mtime, r.name)) :=
      mem_sortedPairs.mp ((List.take_sublist k _).subset hp)
    have hgpairs : (g.mtime, g.name) ∈ dir.map (fun r => (r.mtime, r.name)) :=
      List.mem_map_of_mem _ hg
    have hpeq : p = (g.mtime, g.name) :=
      pairs_name_inj hnd p hppairs (g.mtime, g.name) hgpairs (by rw [← hgname])
    -- f's pair lies in the retained suffix of the sorted listing
    have hfpairs : (f.mtime, f.name) ∈ sortedPairs dir :=
      mem_sortedPairs.mpr (List.mem_map_of_mem _ hfdir)
    have hfnotin : (f.mtime, f.name) ∉ (sortedPairs dir).take k := by
      intro hin
      exact hfpred (f.mtime, f.name) hin rfl rfl
    have hfdrop : (f.mtime, f.name) ∈ (sortedPairs dir).drop k := by
      have := hfpairs
      rw [← List.take_append_drop k (sortedPairs dir)] at this
      exact (List.mem_append.mp this).resolve_left hfnotin
    -- sortedness gives the mtime comparison across the take/drop split
    have hsorted := sortedPairs_sorted dir
    rw [List.Sorted, ← List.take_append_drop k (sortedPairs dir),
      List.pairwise_append] at hsorted
    have := hsorted.2.2 p (hpeq ▸ hp) (f.mtime, f.name) hfdrop
    rw [hpeq] at this
    exact this

theorem cleanup_removes_ok (ok : List Char → Bool) (dir : List StoredFile) :
    ∀ p ∈ (sortedPairs dir).take ((sortedPairs dir).length / 2), ok p.2 = true →
      ∀ f ∈ cleanup_old_files ok dir, f.name ≠ p.2 := by
  intro p hp hok f hf
  unfold cleanup_old_files at hf
  by_cases hk : 0 < (sortedPairs dir).length / 2
  · rw [if_pos hk, unlinkFiles_eq_filter] at hf
    have := (List.mem_filter.mp hf).2
    rw [decide_eq_true_eq] at this
    exact this p hp hok
  · have hzero : (sortedPairs dir).length / 2 = 0 := by omega
    rw [hzero, List.take_zero] at hp
    simp at hp

theorem cleanup_keeps_failed (ok : List Char → Bool) (dir : List StoredFile) :
    ∀ f ∈ dir, ok f.name = false → f ∈ cleanup_old_files ok dir := by
  intro f hf hok
  unfold cleanup_old_files
  by_cases hk : 0 < (sortedPairs dir).length / 2
  · rw [if_pos hk, unlinkFiles_eq_filter]
    apply List.mem_filter.mpr ⟨hf, ?_⟩
    rw [decide_eq_true_eq]
    intro p _ hokp hname
    rw [hname, hokp] at hok
    exact Bool.noConfusion hok
  · rw [if_neg hk]
    exact hf

/-- Claim C5: `cleanup_old_files` lists all stored records with their
modification times, sorts them ascending by modification time, and (for a
directory with distinct filenames) deletes exactly `floor(count/2)` oldest
records when all deletions succeed — every retained record is at least as
recently modified as every deleted one; a deletion failure for one record
is skipped without aborting the remaining deletions: every record of the
removal prefix whose unlink succeeds is still removed, and a record whose
unlink fails remains in the store. -/
theorem cleanup_policy (dir : List StoredFile)
    (hnd : (dir.map (fun f => f.name)).Nodup) :
    (cleanup_old_files (fun _ => true) dir).length = dir.length - dir.length / 2
    ∧ (∀ f ∈ cleanup_old_files (fun _ => true) dir, ∀ g ∈ dir,
        g ∉ cleanup_old_files (fun _ => true) dir → g.mtime ≤ f.mtime)
    ∧ (∀ (ok : List Char → Bool),
        ∀ p ∈ (sortedPairs dir).take ((sortedPairs dir).length / 2),
          ok p.2 = true → ∀ f ∈ cleanup_old_files ok dir, f.name ≠ p.2)
    ∧ (∀ (ok : List Char → Bool), ∀ f ∈ dir, ok f.name = false →
        f ∈ cleanup_old_files ok dir) :=
  ⟨cleanup_true_length dir hnd, cleanup_true_retained dir hnd,
   fun ok p hp hok => cleanup_removes_ok ok dir p hp hok,
   fun ok f hf hok => cleanup_keeps_failed ok dir f hf hok⟩

/-- Claim C5, witness: on a concrete three-record store the cleanup keeps
the two most recent records when every unlink succeeds, and keeps a record
whose unlink fails. -/
theorem cleanup_policy_witness :
    (cleanup_old_files (fun _ => true)
      [⟨chars ("a"), 5⟩, ⟨chars ("b"), 1⟩, ⟨chars ("c"), 3⟩]).length
      = ([⟨chars ("a"), 5⟩, ⟨chars ("b"), 1⟩, ⟨chars ("c"), 3⟩] :
          List StoredFile).length
        - ([⟨chars ("a"), 5⟩, ⟨chars ("b"), 1⟩, ⟨chars ("c"), 3⟩] :
          List StoredFile).length / 2
    ∧ (⟨chars ("b"), 1⟩ : StoredFile) ∈ cleanup_old_files
        (fun n => decide (n ≠ chars ("b")))
        [⟨chars ("a"), 5⟩, ⟨chars ("b"), 1⟩, ⟨chars ("c"), 3⟩] :=
  ⟨(cleanup_policy [⟨chars ("a"), 5⟩, ⟨chars ("b"), 1⟩, ⟨chars ("c"), 3⟩]
      (by decide)).1,
   (cleanup_policy [⟨chars ("a"), 5⟩, ⟨chars ("b"), 1⟩, ⟨chars ("c"), 3⟩]
      (by decide)).2.2.2 (fun n => decide (n ≠ chars ("b")))
      ⟨chars ("b"), 1⟩ (by decide) (by decide)⟩

/-- Claim C1, counterexample: the capacity invariant fails both for
`maxCapacity = 1` (a save against a full one-slot store evicts
`1 // 2 = 0` records and ends with 2) and for a pre-call count above the
capacity (5 records against capacity 2: eviction removes 2, leaving 3,
and the write makes 4 > 2) — so it does not hold for every configured
capacity `>= 1` and every pre-call record count. -/
theorem save_capacity_cex :
    ¬((save_message (fun _ => true) true 1
        [⟨chars ("a"), 0⟩] ⟨chars ("b"), 1⟩).1.length ≤ 1)
    ∧ ¬((save_message (fun _ => true) true 2
        [⟨chars ("a"), 0⟩, ⟨chars ("b"), 1⟩, ⟨chars ("c"), 2⟩, ⟨chars ("d"), 3⟩,
         ⟨chars ("e"), 4⟩] ⟨chars ("f"), 5⟩).1.length ≤ 2) := by decide

/-- Claim C1 (amended): for every configured capacity `maxCapacity >= 2`
and every pre-call record count at most `maxCapacity` (with distinct
filenames and all deletions succeeding), after `save_message` completes a
successful write the stored record count is again at most `maxCapacity` —
the eviction run inside save restores the bound before the new record is
written. -/
theorem save_capacity (max_files : Nat) (dir : List StoredFile) (f : StoredFile)
    (h2 : 2 ≤ max_files) (hle : dir.length ≤ max_files)
    (hnd : (dir.map (fun g => g.name)).Nodup) :
    ((save_message (fun _ => true) true max_files dir f).1).length ≤ max_files := by
  unfold save_message count_message_files
  rw [if_pos rfl]
  by_cases hc : max_files ≤ dir.length
  · rw [if_pos hc]
    rw [List.length_append, cleanup_true_length dir hnd]
    have heq : dir.length = max_files := Nat.le_antisymm hle hc
    simp only [List.length_cons, List.length_nil]
    omega
  · rw [if_neg hc]
    rw [List.length_append]
    simp only [List.length_cons, List.length_nil]
    omega

/-- Claim C1, witness: a save against a full two-slot store with distinct
filenames ends within capacity. -/
theorem save_capacity_witness :
    ((save_message (fun _ => true) true 2
      [⟨chars ("a"), 0⟩, ⟨chars ("b"), 1⟩] ⟨chars ("c"), 2⟩).1).length ≤ 2 :=
  save_capacity 2 [⟨chars ("a"), 0⟩, ⟨chars ("b"), 1⟩] ⟨chars ("c"), 2⟩
    (by decide) (by decide) (by decide)
